import Mathlib

/-! A shallow embedding of the Magistrala time-series test-data generator
`scripts/gen-ts-data/gen-messages.py`, together with proofs of the spec
claims about it.

Modelling conventions:
* Python integers are `Nat`/`Int`; `datetime` values are exact integer
  microseconds since the Unix epoch (Python `datetime` has microsecond
  resolution and exact `timedelta` arithmetic); numeric steps that CPython
  routes through IEEE doubles (`/`, `.timestamp() * 1e9`, `random.uniform`)
  are modelled as exact arithmetic over `ℚ`/`ℤ`.
* `uuid.uuid4()` is modelled as a stream `uuid : Nat → Nat` of 128-bit
  values consumed in call order; the freshness assumption of the spec is
  the hypothesis `Function.Injective uuid`.
* `random.random()` is modelled as a stream `rand : Nat → Nat` of 53-bit
  numerators consumed in call order (CPython's `random()` returns
  `k / 2^53` with `k < 2^53`); `random.uniform a b` is `a + (b - a) * (k / 2^53)`.
* The output file is modelled as the list of lines written, in order,
  each line without the trailing newline of its `f.write`.
* The `print` progress messages and the file-system path handling are I/O
  glue outside the data contract and are not modelled.
-/

/-- Python `range(1, n+1)`: the 1-based index list driving every loop of the
catalog-building part of the script. -/
def range1 (n : Nat) : List Nat := (List.range n).map (· + 1)

/-- The decimal digit characters emitted by Python `str` on a nonnegative
integer (codepoint 48 + d); arguments `≥ 10` never occur and map to a dummy
character. -/
def digitChar (d : Nat) : Char := if d < 10 then Char.ofNat (48 + d) else '*'

/-- Fuel-based most-significant-first decimal digit list of `n` (empty for
`0`); fuel `≥ n` is always sufficient since the recursion divides by 10. -/
def natStrAux : Nat → Nat → List Char
  | 0, _ => []
  | fuel + 1, n => if n = 0 then [] else natStrAux fuel (n / 10) ++ [digitChar (n % 10)]

/-- Model of Python `str` on a nonnegative integer: decimal digits, no
leading zeros, `"0"` for zero. -/
def natStr (n : Nat) : String := if n = 0 then "0" else String.mk (natStrAux n n)

/-- Model of Python `str` on an integer: a `-` sign prepended for negative
values. -/
def intStr (z : Int) : String := if z < 0 then "-" ++ natStr z.natAbs else natStr z.toNat

/-- The lowercase hexadecimal digit characters used by Python `str` on a
`uuid.UUID` (codepoints of `0`-`9` then `a`-`f`); arguments `≥ 16` never
occur and map to a dummy character. -/
def hexChar (d : Nat) : Char :=
  if d < 10 then Char.ofNat (48 + d) else if d < 16 then Char.ofNat (87 + d) else '*'

/-- Most-significant-first, zero-padded, fixed-width hexadecimal digit list
of `n`; the first argument is the width. -/
def hexDigits : Nat → Nat → List Char
  | 0, _ => []
  | w + 1, n => hexDigits w (n / 16) ++ [hexChar (n % 16)]

/-- Model of Python `str(uuid.UUID)`: the 32 zero-padded lowercase hex
digits of the 128-bit value, in 8-4-4-4-12 groups separated by hyphens. -/
def uuidStr (n : Nat) : String :=
  let h := hexDigits 32 n
  String.mk (h.take 8 ++ ['-'] ++ ((h.drop 8).take 4) ++ ['-'] ++ ((h.drop 12).take 4)
    ++ ['-'] ++ ((h.drop 16).take 4) ++ ['-'] ++ h.drop 20)

/-- Modelled from Python's float `repr`: a decimal rendering (integer part,
decimal point, fraction digits). CPython's exact digit selection (shortest
round-trip) is immaterial to the verified claims, which depend only on the
emitted character classes: digits, sign and point. -/
def ratStr (q : ℚ) : String :=
  intStr ⌊q⌋ ++ "." ++ natStr (⌊(q - ⌊q⌋) * 10 ^ 17⌋).toNat

/-- The module-level configuration constants of the script. -/
structure Config where
  num_channels : Nat
  num_subtopic : Nat
  num_publisher : Nat
  num_metrics : Nat
  last_num_days : Nat
  data_interval_minutes : Nat

/-- The constant values assigned at the top of the script. -/
def defaultConfig : Config :=
  { num_channels := 100, num_subtopic := 1, num_publisher := 3, num_metrics := 10,
    last_num_days := 30, data_interval_minutes := 15 }

/-- One entry of the script's `rows` list: the dict
`{channel, subtopic, publisher, name}`; `channel` and `publisher` hold the
128-bit values of the drawn UUIDs. -/
structure Row where
  channel : Nat
  subtopic : String
  publisher : Nat
  name : String
deriving DecidableEq

/-- The innermost loop of the catalog builder: for `name_idx` in
`range(1, num_metrics+1)`, append one row with name `metric_<name_idx>`. -/
def metricRows (channelId : Nat) (subtopic : String) (publisherId : Nat) (M : Nat) :
    List Row :=
  (range1 M).map fun nameIdx =>
    { channel := channelId, subtopic := subtopic, publisher := publisherId,
      name := "metric_" ++ natStr nameIdx }

/-- The publisher loop: each iteration draws one fresh UUID (call counter
threaded as the `Nat` component) and emits that publisher's metric rows. -/
def publisherRows (uuid : Nat → Nat) (channelId : Nat) (subtopic : String) (M : Nat) :
    List Nat → Nat → List Row × Nat
  | [], ctr => ([], ctr)
  | _ :: ps, ctr =>
    let publisherId := uuid ctr
    let rest := publisherRows uuid channelId subtopic M ps (ctr + 1)
    (metricRows channelId subtopic publisherId M ++ rest.1, rest.2)

/-- The subtopic loop: each iteration fixes the label `subtopic_<idx>` and
runs the publisher loop over `range(1, num_publisher+1)`. -/
def subtopicRows (uuid : Nat → Nat) (channelId : Nat) (P M : Nat) :
    List Nat → Nat → List Row × Nat
  | [], ctr => ([], ctr)
  | sIdx :: ss, ctr =>
    let blk := publisherRows uuid channelId ("subtopic_" ++ natStr sIdx) M (range1 P) ctr
    let rest := subtopicRows uuid channelId P M ss blk.2
    (blk.1 ++ rest.1, rest.2)

/-- The channel loop: each iteration draws one fresh channel UUID and runs
the subtopic loop over `range(1, num_subtopic+1)`. -/
def channelRows (uuid : Nat → Nat) (S P M : Nat) : List Nat → Nat → List Row × Nat
  | [], ctr => ([], ctr)
  | _ :: cs, ctr =>
    let channelId := uuid ctr
    let blk := subtopicRows uuid channelId P M (range1 S) (ctr + 1)
    let rest := channelRows uuid S P M cs blk.2
    (blk.1 ++ rest.1, rest.2)

/-- The script's `rows` list: all (channel, subtopic, publisher, name)
combinations, with the UUID stream consumed from call 0. -/
def rows (cfg : Config) (uuid : Nat → Nat) : List Row :=
  (channelRows uuid cfg.num_subtopic cfg.num_publisher cfg.num_metrics
    (range1 cfg.num_channels) 0).1

/-- The script's `num_intervals`:
`int((last_num_days * 24 * 60) / data_interval_minutes)`. Python's true
division followed by `int()` truncation coincides with floor division under
exact arithmetic on nonnegative operands. -/
def num_intervals (cfg : Config) : Nat :=
  cfg.last_num_days * 24 * 60 / cfg.data_interval_minutes

/-- The script's `start_time` (`datetime.now() - timedelta(days=last_num_days)`)
in integer microseconds, with `now` the generation instant in microseconds. -/
def startTimeUs (cfg : Config) (now : Int) : Int :=
  now - cfg.last_num_days * 86400000000

/-- The script's `timestamp_ns` for loop index `i`:
`int((start_time + i * interval).timestamp() * 1_000_000_000)`, i.e. the
exact microsecond instant scaled to nanoseconds. -/
def timestampNs (cfg : Config) (now : Int) (i : Nat) : Int :=
  (startTimeUs cfg now + i * (cfg.data_interval_minutes * 60000000)) * 1000

/-- The emitted timestamp sequence, in emission order. -/
def timestamps (cfg : Config) (now : Int) : List Int :=
  (List.range (num_intervals cfg)).map (timestampNs cfg now)

/-- CPython's `random.random()`: the 53-bit draw `k` scaled to `k / 2^53`. -/
def randomUnit (k : Nat) : ℚ := k / 2 ^ 53

/-- CPython's `random.uniform a b`: `a + (b - a) * random()`. -/
def uniform (a b : ℚ) (k : Nat) : ℚ := a + (b - a) * randomUnit k

/-- One reading as written to the file: the timestamp, the catalog entry
and the freshly sampled value. -/
structure OutRow where
  time : Int
  row : Row
  value : ℚ
deriving DecidableEq

/-- The inner emission loop: one `random.uniform(0, 100)` draw per catalog
row (draw counter threaded as the `Nat` component), at a fixed timestamp. -/
def rowBlock (rand : Nat → Nat) (t : Int) : List Row → Nat → List OutRow × Nat
  | [], ctr => ([], ctr)
  | r :: rs, ctr =>
    let v := uniform 0 100 (rand ctr)
    let rest := rowBlock rand t rs (ctr + 1)
    ({ time := t, row := r, value := v } :: rest.1, rest.2)

/-- The outer emission loop: `for i in range(num_intervals)`, emit one block
of rows at `timestamp_ns(i)`. -/
def emitAll (cfg : Config) (now : Int) (rand : Nat → Nat) (rs : List Row) :
    List Nat → Nat → List OutRow × Nat
  | [], ctr => ([], ctr)
  | i :: is, ctr =>
    let blk := rowBlock rand (timestampNs cfg now i) rs ctr
    let rest := emitAll cfg now rand rs is blk.2
    (blk.1 ++ rest.1, rest.2)

/-- All readings written by a run, in file order. -/
def dataRows (cfg : Config) (uuid rand : Nat → Nat) (now : Int) : List OutRow :=
  (emitAll cfg now rand (rows cfg uuid) (List.range (num_intervals cfg)) 0).1

/-- The header line written by the first `f.write`. -/
def headerLine : String := "time,channel,subtopic,publisher,protocol,name,unit,value"

/-- The eight comma-separated fields of one data line, in file order. -/
def renderFields (o : OutRow) : List String :=
  [intStr o.time, uuidStr o.row.channel, o.row.subtopic, uuidStr o.row.publisher,
    "mqtt", o.row.name, "unit", ratStr o.value]

/-- One data line as formatted by the f-string
`f"{timestamp_ns},{channel},{subtopic},{publisher},mqtt,{name},unit,{value}"`. -/
def renderRow (o : OutRow) : String :=
  intStr o.time ++ "," ++ uuidStr o.row.channel ++ "," ++ o.row.subtopic ++ ","
    ++ uuidStr o.row.publisher ++ ",mqtt," ++ o.row.name ++ ",unit," ++ ratStr o.value

/-- The whole output file as its list of lines: the header, then every
reading rendered in emission order. -/
def outputLines (cfg : Config) (uuid rand : Nat → Nat) (now : Int) : List String :=
  headerLine :: (dataRows cfg uuid rand now).map renderRow

/-! Arithmetic and character facts about the decimal and hexadecimal
renderings. -/

/-- The numeric value read back from a digit-character list; a left inverse
for the decimal rendering. -/
def strVal (cs : List Char) : Nat := cs.foldl (fun x c => 10 * x + (c.toNat - 48)) 0

lemma digitChar_toNat {d : Nat} (h : d < 10) : (digitChar d).toNat = 48 + d := by
  interval_cases d <;> rfl

lemma digitChar_ne_comma (d : Nat) : digitChar d ≠ ',' := by
  by_cases h : d < 10
  · interval_cases d <;> decide
  · rw [digitChar, if_neg h]
    decide

lemma digitChar_ne_t (d : Nat) : digitChar d ≠ 't' := by
  by_cases h : d < 10
  · interval_cases d <;> decide
  · rw [digitChar, if_neg h]
    decide

lemma hexChar_ne_comma (d : Nat) : hexChar d ≠ ',' := by
  by_cases h : d < 16
  · interval_cases d <;> decide
  · rw [hexChar, if_neg (by omega), if_neg h]
    decide

lemma foldl_natStrAux (fuel : Nat) : ∀ n a, n ≤ fuel →
    (natStrAux fuel n).foldl (fun x c => 10 * x + (c.toNat - 48)) a =
      a * 10 ^ (natStrAux fuel n).length + n := by
  induction fuel with
  | zero =>
    intro n a h
    interval_cases n
    simp [natStrAux]
  | succ fuel ih =>
    intro n a h
    by_cases hn : n = 0
    · subst hn; simp [natStrAux]
    · have hdiv : n / 10 ≤ fuel := by
        have h1 : n / 10 < n := Nat.div_lt_self (Nat.pos_of_ne_zero hn) (by omega)
        omega
      rw [natStrAux, if_neg hn, List.foldl_append, ih (n / 10) a hdiv]
      have hmod : n % 10 < 10 := Nat.mod_lt _ (by omega)
      simp only [List.foldl_cons, List.foldl_nil, List.length_append, List.length_cons,
        List.length_nil, digitChar_toNat hmod]
      have h2 : 48 + n % 10 - 48 = n % 10 := by omega
      rw [h2, pow_succ]
      have h3 := Nat.div_add_mod n 10
      ring_nf
      omega

lemma strVal_natStr (n : Nat) : strVal (natStr n).data = n := by
  by_cases hn : n = 0
  · subst hn; rfl
  · rw [natStr, if_neg hn]
    show strVal (natStrAux n n) = n
    unfold strVal
    rw [foldl_natStrAux n n 0 (le_refl n)]
    simp

lemma natStr_injective : Function.Injective natStr := by
  intro a b h
  have h1 : strVal (natStr a).data = strVal (natStr b).data := by rw [h]
  rwa [strVal_natStr, strVal_natStr] at h1

lemma mem_natStrAux {c : Char} (fuel : Nat) : ∀ n, c ∈ natStrAux fuel n →
    ∃ d, d < 10 ∧ c = digitChar d := by
  induction fuel with
  | zero => intro n h; simp [natStrAux] at h
  | succ fuel ih =>
    intro n h
    rw [natStrAux] at h
    by_cases hn : n = 0
    · rw [if_pos hn] at h; simp at h
    · rw [if_neg hn] at h
      rcases List.mem_append.mp h with h1 | h1
      · exact ih _ h1
      · refine ⟨n % 10, Nat.mod_lt _ (by omega), ?_⟩
        simpa using h1

lemma mem_natStr {c : Char} {n : Nat} (h : c ∈ (natStr n).data) :
    ∃ d, d < 10 ∧ c = digitChar d := by
  by_cases hn : n = 0
  · subst hn
    refine ⟨0, by omega, ?_⟩
    simpa [natStr] using h
  · refine mem_natStrAux n n ?_
    rw [natStr, if_neg hn] at h
    exact h

lemma natStrAux_ne_nil {fuel n : Nat} (h0 : 0 < n) (h : n ≤ fuel) :
    natStrAux fuel n ≠ [] := by
  cases fuel with
  | zero => omega
  | succ fuel =>
    rw [natStrAux, if_neg (by omega)]
    simp

lemma natStr_data_ne_nil (n : Nat) : (natStr n).data ≠ [] := by
  by_cases hn : n = 0
  · subst hn; simp [natStr]
  · rw [natStr, if_neg hn]
    exact natStrAux_ne_nil (Nat.pos_of_ne_zero hn) (le_refl n)

lemma mem_intStr {c : Char} {z : Int} (h : c ∈ (intStr z).data) :
    c = '-' ∨ ∃ d, d < 10 ∧ c = digitChar d := by
  unfold intStr at h
  by_cases hz : z < 0
  · rw [if_pos hz, String.data_append] at h
    rcases List.mem_append.mp h with h1 | h1
    · left; simpa using h1
    · right; exact mem_natStr h1
  · rw [if_neg hz] at h
    right; exact mem_natStr h

lemma mem_intStr_ne_t {c : Char} {z : Int} (h : c ∈ (intStr z).data) : c ≠ 't' := by
  rcases mem_intStr h with h1 | ⟨d, _, h1⟩
  · subst h1; decide
  · subst h1; exact digitChar_ne_t d

lemma intStr_data_ne_nil (z : Int) : (intStr z).data ≠ [] := by
  unfold intStr
  by_cases hz : z < 0
  · rw [if_pos hz, String.data_append]
    simp
  · rw [if_neg hz]
    exact natStr_data_ne_nil _

lemma comma_not_mem_natStr (n : Nat) : ',' ∉ (natStr n).data := by
  intro h
  rcases mem_natStr h with ⟨d, _, h1⟩
  exact digitChar_ne_comma d h1.symm

lemma comma_not_mem_intStr (z : Int) : ',' ∉ (intStr z).data := by
  intro h
  rcases mem_intStr h with h1 | ⟨d, _, h1⟩
  · simp at h1
  · exact digitChar_ne_comma d h1.symm

lemma mem_hexDigits {c : Char} (w : Nat) : ∀ n, c ∈ hexDigits w n →
    ∃ d, d < 16 ∧ c = hexChar d := by
  induction w with
  | zero => intro n h; simp [hexDigits] at h
  | succ w ih =>
    intro n h
    rw [hexDigits] at h
    rcases List.mem_append.mp h with h1 | h1
    · exact ih _ h1
    · refine ⟨n % 16, Nat.mod_lt _ (by omega), ?_⟩
      simpa using h1

lemma comma_not_mem_hexDigits (w n : Nat) : ',' ∉ hexDigits w n := by
  intro h
  rcases mem_hexDigits w n h with ⟨d, _, h1⟩
  exact hexChar_ne_comma d h1.symm

lemma uuidStr_data (n : Nat) : (uuidStr n).data =
    (hexDigits 32 n).take 8 ++ ['-'] ++ (((hexDigits 32 n).drop 8).take 4) ++ ['-']
      ++ (((hexDigits 32 n).drop 12).take 4) ++ ['-'] ++ (((hexDigits 32 n).drop 16).take 4)
      ++ ['-'] ++ (hexDigits 32 n).drop 20 := rfl

lemma comma_not_mem_groups (L : List Char) (hL : ',' ∉ L) :
    ',' ∉ (L.take 8 ++ ['-'] ++ ((L.drop 8).take 4) ++ ['-'] ++ ((L.drop 12).take 4)
      ++ ['-'] ++ ((L.drop 16).take 4) ++ ['-'] ++ L.drop 20) := by
  intro h
  rcases List.mem_append.mp h with h1 | h1
  swap
  · exact hL (List.mem_of_mem_drop h1)
  rcases List.mem_append.mp h1 with h2 | h2
  swap
  · simp at h2
  rcases List.mem_append.mp h2 with h3 | h3
  swap
  · exact hL (List.mem_of_mem_drop (List.mem_of_mem_take h3))
  rcases List.mem_append.mp h3 with h4 | h4
  swap
  · simp at h4
  rcases List.mem_append.mp h4 with h5 | h5
  swap
  · exact hL (List.mem_of_mem_drop (List.mem_of_mem_take h5))
  rcases List.mem_append.mp h5 with h6 | h6
  swap
  · simp at h6
  rcases List.mem_append.mp h6 with h7 | h7
  swap
  · exact hL (List.mem_of_mem_drop (List.mem_of_mem_take h7))
  rcases List.mem_append.mp h7 with h8 | h8
  swap
  · simp at h8
  exact hL (List.mem_of_mem_take h8)

lemma comma_not_mem_uuidStr (n : Nat) : ',' ∉ (uuidStr n).data := by
  rw [uuidStr_data]
  exact comma_not_mem_groups (hexDigits 32 n) (comma_not_mem_hexDigits 32 n)

lemma comma_not_mem_ratStr (q : ℚ) : ',' ∉ (ratStr q).data := by
  intro h
  unfold ratStr at h
  rw [String.data_append, String.data_append] at h
  rcases List.mem_append.mp h with h1 | h1
  · rcases List.mem_append.mp h1 with h2 | h2
    · exact comma_not_mem_intStr _ h2
    · simp at h2
  · exact comma_not_mem_natStr _ h1

/-! Bookkeeping for the UUID call counter and the loop index lists. -/

lemma range1_length (n : Nat) : (range1 n).length = n := by simp [range1]

lemma range1_nodup (n : Nat) : (range1 n).Nodup :=
  (List.nodup_range n).map fun a b h => by omega

lemma mem_range1 {n i : Nat} : i ∈ range1 n ↔ 1 ≤ i ∧ i ≤ n := by
  simp only [range1, List.mem_map, List.mem_range]
  constructor
  · rintro ⟨j, hj, rfl⟩; omega
  · intro h; exact ⟨i - 1, by omega, by omega⟩

lemma string_append_left_cancel {s a b : String} (h : s ++ a = s ++ b) : a = b := by
  have h1 : (s ++ a).data = (s ++ b).data := by rw [h]
  rw [String.data_append, String.data_append] at h1
  exact String.ext (List.append_cancel_left h1)

/-- Consecutive counter values `[c, c+1, ..., c+n-1]`. -/
def ctrList : Nat → Nat → List Nat
  | 0, _ => []
  | n + 1, c => c :: ctrList n (c + 1)

lemma ctrList_length : ∀ n c, (ctrList n c).length = n := by
  intro n
  induction n with
  | zero => intro c; rfl
  | succ n ih => intro c; simp [ctrList, ih]

lemma mem_ctrList : ∀ n c k, k ∈ ctrList n c → c ≤ k ∧ k < c + n := by
  intro n
  induction n with
  | zero => intro c k h; simp [ctrList] at h
  | succ n ih =>
    intro c k h
    rcases List.mem_cons.mp h with h1 | h1
    · omega
    · have := ih (c + 1) k h1
      omega

lemma ctrList_nodup : ∀ n c, (ctrList n c).Nodup := by
  intro n
  induction n with
  | zero => intro c; simp [ctrList]
  | succ n ih =>
    intro c
    refine List.Nodup.cons ?_ (ih (c + 1))
    intro h
    have := mem_ctrList n (c + 1) c h
    omega

lemma ctrList_add : ∀ a b c, ctrList (a + b) c = ctrList a c ++ ctrList b (c + a) := by
  intro a
  induction a with
  | zero => intro b c; simp [ctrList]
  | succ a ih =>
    intro b c
    have h1 : a + 1 + b = (a + b) + 1 := by omega
    rw [h1, ctrList, ctrList, ih b (c + 1), List.cons_append]
    have h2 : c + 1 + a = c + (a + 1) := by omega
    rw [h2]

/-- The UUID-stream call indices at which channel identifiers are drawn: one
per channel, each followed by the `SP` publisher calls of that channel. -/
def chanCtrs (SP : Nat) : List Nat → Nat → List Nat
  | [], _ => []
  | _ :: cs, c => c :: chanCtrs SP cs (c + 1 + SP)

/-- The UUID-stream call indices at which publisher identifiers are drawn:
one block of `SP` per channel, offset past that channel's own call. -/
def chanPubCtrs (SP : Nat) : List Nat → Nat → List Nat
  | [], _ => []
  | _ :: cs, c => ctrList SP (c + 1) ++ chanPubCtrs SP cs (c + 1 + SP)

lemma chanCtrs_length (SP : Nat) : ∀ cs c, (chanCtrs SP cs c).length = cs.length := by
  intro cs
  induction cs with
  | nil => intro c; rfl
  | cons x cs ih => intro c; simp [chanCtrs, ih]

lemma mem_chanCtrs (SP : Nat) : ∀ cs c k, k ∈ chanCtrs SP cs c → c ≤ k := by
  intro cs
  induction cs with
  | nil => intro c k h; simp [chanCtrs] at h
  | cons x cs ih =>
    intro c k h
    rcases List.mem_cons.mp h with h1 | h1
    · omega
    · have := ih (c + 1 + SP) k h1
      omega

lemma chanCtrs_nodup (SP : Nat) : ∀ cs c, (chanCtrs SP cs c).Nodup := by
  intro cs
  induction cs with
  | nil => intro c; simp [chanCtrs]
  | cons x cs ih =>
    intro c
    refine List.Nodup.cons ?_ (ih (c + 1 + SP))
    intro h
    have := mem_chanCtrs SP cs (c + 1 + SP) c h
    omega

lemma chanPubCtrs_length (SP : Nat) : ∀ cs c, (chanPubCtrs SP cs c).length = cs.length * SP := by
  intro cs
  induction cs with
  | nil => intro c; simp [chanPubCtrs]
  | cons x cs ih =>
    intro c
    simp [chanPubCtrs, ctrList_length, ih]
    ring

lemma mem_chanPubCtrs (SP : Nat) : ∀ cs c k, k ∈ chanPubCtrs SP cs c → c < k := by
  intro cs
  induction cs with
  | nil => intro c k h; simp [chanPubCtrs] at h
  | cons x cs ih =>
    intro c k h
    rcases List.mem_append.mp h with h1 | h1
    · have := mem_ctrList SP (c + 1) k h1
      omega
    · have := ih (c + 1 + SP) k h1
      omega

lemma chanPubCtrs_nodup (SP : Nat) : ∀ cs c, (chanPubCtrs SP cs c).Nodup := by
  intro cs
  induction cs with
  | nil => intro c; simp [chanPubCtrs]
  | cons x cs ih =>
    intro c
    rw [chanPubCtrs, List.nodup_append]
    refine ⟨ctrList_nodup SP (c + 1), ih (c + 1 + SP), ?_⟩
    intro k hk hk2
    have h1 := mem_ctrList SP (c + 1) k hk
    have h2 := mem_chanPubCtrs SP cs (c + 1 + SP) k hk2
    omega

lemma publisherRows_snd (uuid : Nat → Nat) (ch : Nat) (st : String) (M : Nat) :
    ∀ ps ctr, (publisherRows uuid ch st M ps ctr).2 = ctr + ps.length := by
  intro ps
  induction ps with
  | nil => intro ctr; rfl
  | cons p ps ih =>
    intro ctr
    simp [publisherRows, ih (ctr + 1)]
    omega

lemma subtopicRows_snd (uuid : Nat → Nat) (ch P M : Nat) :
    ∀ ss ctr, (subtopicRows uuid ch P M ss ctr).2 = ctr + ss.length * P := by
  intro ss
  induction ss with
  | nil => intro ctr; simp [subtopicRows]
  | cons s ss ih =>
    intro ctr
    simp [subtopicRows, ih, publisherRows_snd, range1_length]
    ring

lemma channelRows_snd (uuid : Nat → Nat) (S P M : Nat) :
    ∀ cs ctr, (channelRows uuid S P M cs ctr).2 = ctr + cs.length * (1 + S * P) := by
  intro cs
  induction cs with
  | nil => intro ctr; simp [channelRows]
  | cons x cs ih =>
    intro ctr
    simp [channelRows, ih, subtopicRows_snd, range1_length]
    ring

/-! Projections of the catalog onto its identifier and label components. -/

/-- The metric-name labels, in loop order. -/
def mNames (M : Nat) : List String := (range1 M).map fun i => "metric_" ++ natStr i

/-- The (publisher, name) component of a catalog row; two catalog rows are
already separated by this pair alone. -/
def pubName (r : Row) : Nat × String := (r.publisher, r.name)

lemma mNames_length (M : Nat) : (mNames M).length = M := by
  simp [mNames, range1_length]

lemma mNames_nodup (M : Nat) : (mNames M).Nodup :=
  (range1_nodup M).map fun _ _ h => natStr_injective (string_append_left_cancel h)

lemma mem_mNames {M : Nat} {nm : String} (h : nm ∈ mNames M) :
    ∃ j, 1 ≤ j ∧ j ≤ M ∧ nm = "metric_" ++ natStr j := by
  rcases List.mem_map.mp h with ⟨j, hj, rfl⟩
  rcases mem_range1.mp hj with ⟨h1, h2⟩
  exact ⟨j, h1, h2, rfl⟩

lemma metricRows_map_pubName (ch : Nat) (st : String) (pid M : Nat) :
    (metricRows ch st pid M).map pubName = (mNames M).map fun nm => (pid, nm) := by
  simp only [metricRows, mNames, List.map_map]
  rfl

lemma metricRows_map_channel (ch : Nat) (st : String) (pid M : Nat) :
    (metricRows ch st pid M).map Row.channel = List.replicate M ch := by
  simp only [metricRows, List.map_map]
  have h1 : (range1 M).map ((Row.channel ∘ fun nameIdx =>
      { channel := ch, subtopic := st, publisher := pid,
        name := "metric_" ++ natStr nameIdx : Row })) = (range1 M).map fun _ => ch := rfl
  rw [h1, List.map_const', range1_length]

lemma metricRows_subtopic (ch : Nat) (st : String) (pid M : Nat) :
    ∀ r ∈ metricRows ch st pid M, r.subtopic = st := by
  intro r hr
  rcases List.mem_map.mp hr with ⟨i, _, rfl⟩
  rfl

lemma publisherRows_map_pubName (uuid : Nat → Nat) (ch : Nat) (st : String) (M : Nat) :
    ∀ ps ctr, ((publisherRows uuid ch st M ps ctr).1).map pubName =
      (ctrList ps.length ctr).flatMap fun k => (mNames M).map fun nm => (uuid k, nm) := by
  intro ps
  induction ps with
  | nil => intro ctr; rfl
  | cons p ps ih =>
    intro ctr
    simp only [publisherRows, List.map_append, List.length_cons, ctrList, List.flatMap_cons,
      metricRows_map_pubName, ih (ctr + 1)]

lemma publisherRows_map_channel (uuid : Nat → Nat) (ch : Nat) (st : String) (M : Nat) :
    ∀ ps ctr, ((publisherRows uuid ch st M ps ctr).1).map Row.channel =
      List.replicate (ps.length * M) ch := by
  intro ps
  induction ps with
  | nil => intro ctr; simp [publisherRows]
  | cons p ps ih =>
    intro ctr
    have h1 : (p :: ps).length * M = M + ps.length * M := by simp [Nat.succ_mul]; ring
    simp only [publisherRows, List.map_append, metricRows_map_channel, ih (ctr + 1), h1,
      List.replicate_add]

lemma publisherRows_subtopic (uuid : Nat → Nat) (ch : Nat) (st : String) (M : Nat) :
    ∀ ps ctr, ∀ r ∈ (publisherRows uuid ch st M ps ctr).1, r.subtopic = st := by
  intro ps
  induction ps with
  | nil => intro ctr r hr; simp [publisherRows] at hr
  | cons p ps ih =>
    intro ctr r hr
    rcases List.mem_append.mp hr with h1 | h1
    · exact metricRows_subtopic ch st _ M r h1
    · exact ih (ctr + 1) r h1

lemma subtopicRows_map_pubName (uuid : Nat → Nat) (ch P M : Nat) :
    ∀ ss ctr, ((subtopicRows uuid ch P M ss ctr).1).map pubName =
      (ctrList (ss.length * P) ctr).flatMap fun k => (mNames M).map fun nm => (uuid k, nm) := by
  intro ss
  induction ss with
  | nil => intro ctr; simp [subtopicRows, ctrList]
  | cons s ss ih =>
    intro ctr
    have h1 : (s :: ss).length * P = P + ss.length * P := by simp [Nat.succ_mul]; ring
    have h2 : (publisherRows uuid ch ("subtopic_" ++ natStr s) M (range1 P) ctr).2 =
        ctr + P := by rw [publisherRows_snd, range1_length]
    simp only [subtopicRows, List.map_append, publisherRows_map_pubName, range1_length, h2,
      ih, h1, ctrList_add, List.flatMap_append]

lemma subtopicRows_map_channel (uuid : Nat → Nat) (ch P M : Nat) :
    ∀ ss ctr, ((subtopicRows uuid ch P M ss ctr).1).map Row.channel =
      List.replicate (ss.length * (P * M)) ch := by
  intro ss
  induction ss with
  | nil => intro ctr; simp [subtopicRows]
  | cons s ss ih =>
    intro ctr
    have h1 : (s :: ss).length * (P * M) = P * M + ss.length * (P * M) := by
      simp [Nat.succ_mul]; ring
    simp only [subtopicRows, List.map_append, publisherRows_map_channel, range1_length, ih,
      h1, List.replicate_add]

lemma subtopicRows_subtopic (uuid : Nat → Nat) (ch P M : Nat) :
    ∀ ss ctr, ∀ r ∈ (subtopicRows uuid ch P M ss ctr).1,
      ∃ i ∈ ss, r.subtopic = "subtopic_" ++ natStr i := by
  intro ss
  induction ss with
  | nil => intro ctr r hr; simp [subtopicRows] at hr
  | cons s ss ih =>
    intro ctr r hr
    rcases List.mem_append.mp hr with h1 | h1
    · exact ⟨s, List.mem_cons_self s ss,
        publisherRows_subtopic uuid ch _ M (range1 P) ctr r h1⟩
    · rcases ih _ r h1 with ⟨i, hi, hs⟩
      exact ⟨i, List.mem_cons_of_mem s hi, hs⟩

lemma channelRows_map_pubName (uuid : Nat → Nat) (S P M : Nat) :
    ∀ cs ctr, ((channelRows uuid S P M cs ctr).1).map pubName =
      (chanPubCtrs (S * P) cs ctr).flatMap fun k => (mNames M).map fun nm => (uuid k, nm) := by
  intro cs
  induction cs with
  | nil => intro ctr; simp [channelRows, chanPubCtrs]
  | cons x cs ih =>
    intro ctr
    have h2 : (subtopicRows uuid (uuid ctr) P M (range1 S) (ctr + 1)).2 =
        ctr + 1 + S * P := by rw [subtopicRows_snd, range1_length]
    simp only [channelRows, List.map_append, subtopicRows_map_pubName, range1_length, h2,
      ih, chanPubCtrs, List.flatMap_append]

lemma channelRows_map_channel (uuid : Nat → Nat) (S P M : Nat) :
    ∀ cs ctr, ((channelRows uuid S P M cs ctr).1).map Row.channel =
      (chanCtrs (S * P) cs ctr).flatMap fun k => List.replicate (S * (P * M)) (uuid k) := by
  intro cs
  induction cs with
  | nil => intro ctr; simp [channelRows, chanCtrs]
  | cons x cs ih =>
    intro ctr
    have h2 : (subtopicRows uuid (uuid ctr) P M (range1 S) (ctr + 1)).2 =
        ctr + 1 + S * P := by rw [subtopicRows_snd, range1_length]
    simp only [channelRows, List.map_append, subtopicRows_map_channel, range1_length, h2,
      ih, chanCtrs, List.flatMap_cons]

lemma channelRows_subtopic (uuid : Nat → Nat) (S P M : Nat) :
    ∀ cs ctr, ∀ r ∈ (channelRows uuid S P M cs ctr).1,
      ∃ i, 1 ≤ i ∧ i ≤ S ∧ r.subtopic = "subtopic_" ++ natStr i := by
  intro cs
  induction cs with
  | nil => intro ctr r hr; simp [channelRows] at hr
  | cons x cs ih =>
    intro ctr r hr
    rcases List.mem_append.mp hr with h1 | h1
    · rcases subtopicRows_subtopic uuid _ P M (range1 S) (ctr + 1) r h1 with ⟨i, hi, hs⟩
      rcases mem_range1.mp hi with ⟨ha, hb⟩
      exact ⟨i, ha, hb, hs⟩
    · exact ih _ r h1

/-! Generic facts about concatenations of constant or paired blocks. -/

lemma flatMap_pairs_nodup {u : Nat → Nat} (hu : Function.Injective u) {ns : List String}
    (hns : ns.Nodup) : ∀ {ks : List Nat}, ks.Nodup →
    (ks.flatMap fun k => ns.map fun nm => (u k, nm)).Nodup := by
  intro ks
  induction ks with
  | nil => intro _; simp
  | cons k ks ih =>
    intro hks
    rw [List.flatMap_cons, List.nodup_append]
    refine ⟨hns.map fun a b h => congrArg Prod.snd h, ih (List.nodup_cons.mp hks).2, ?_⟩
    intro x hx hx2
    rcases List.mem_map.mp hx with ⟨nm, _, rfl⟩
    rcases List.mem_flatMap.mp hx2 with ⟨k2, hk2, hxin⟩
    rcases List.mem_map.mp hxin with ⟨nm2, _, heq⟩
    have h1 : k2 = k := hu (congrArg Prod.fst heq)
    subst h1
    exact (List.nodup_cons.mp hks).1 hk2

lemma flatMap_replicate_count {u : Nat → Nat} (hu : Function.Injective u) (m k0 : Nat) :
    ∀ ks : List Nat,
      (ks.flatMap fun k => List.replicate m (u k)).count (u k0) = m * ks.count k0 := by
  intro ks
  induction ks with
  | nil => simp
  | cons k ks ih =>
    rw [List.flatMap_cons, List.count_append, ih]
    by_cases hk : k = k0
    · subst hk
      simp [List.count_replicate, List.count_cons]
      ring
    · have hne : u k0 ≠ u k := fun h => hk (hu h).symm
      simp [List.count_replicate, List.count_cons, hne, Ne.symm hk]
      exact fun h => absurd h.symm hne

lemma flatMap_replicate_toFinset (u : Nat → Nat) {m : Nat} (hm : m ≠ 0) :
    ∀ ks : List Nat,
      (ks.flatMap fun k => List.replicate m (u k)).toFinset = (ks.map u).toFinset := by
  intro ks
  induction ks with
  | nil => simp
  | cons k ks ih =>
    rw [List.flatMap_cons, List.toFinset_append, ih, List.map_cons, List.toFinset_cons,
      List.toFinset_replicate_of_ne_zero hm, Finset.insert_eq]

lemma flatMap_const_length {β : Type} (g : Nat → List β) (m : Nat)
    (hg : ∀ k, (g k).length = m) : ∀ ks : List Nat, (ks.flatMap g).length = ks.length * m := by
  intro ks
  induction ks with
  | nil => simp
  | cons k ks ih =>
    simp [List.flatMap_cons, hg, ih]
    ring

/-! Corollaries about the full catalog `rows`. -/

/-- The full (channel, subtopic, publisher, name) key of a catalog row. -/
def key4 (r : Row) : Nat × String × Nat × String := (r.channel, r.subtopic, r.publisher, r.name)

lemma rows_map_pubName (cfg : Config) (uuid : Nat → Nat) :
    (rows cfg uuid).map pubName =
      (chanPubCtrs (cfg.num_subtopic * cfg.num_publisher) (range1 cfg.num_channels) 0).flatMap
        fun k => (mNames cfg.num_metrics).map fun nm => (uuid k, nm) :=
  channelRows_map_pubName uuid _ _ _ _ 0

lemma rows_map_channel (cfg : Config) (uuid : Nat → Nat) :
    (rows cfg uuid).map Row.channel =
      (chanCtrs (cfg.num_subtopic * cfg.num_publisher) (range1 cfg.num_channels) 0).flatMap
        fun k => List.replicate (cfg.num_subtopic * (cfg.num_publisher * cfg.num_metrics))
          (uuid k) :=
  channelRows_map_channel uuid _ _ _ _ 0

lemma map_fst_flatMap_pairs (u : Nat → Nat) (ns : List String) : ∀ ks : List Nat,
    ((ks.flatMap fun k => ns.map fun nm => (u k, nm)).map Prod.fst) =
      ks.flatMap fun k => List.replicate ns.length (u k) := by
  intro ks
  induction ks with
  | nil => simp
  | cons k ks ih =>
    simp only [List.flatMap_cons, List.map_append, List.map_map, ih]
    have h1 : ns.map (Prod.fst ∘ fun nm => (u k, nm)) = ns.map fun _ => u k := rfl
    rw [h1, List.map_const']

lemma rows_map_publisher (cfg : Config) (uuid : Nat → Nat) :
    (rows cfg uuid).map Row.publisher =
      (chanPubCtrs (cfg.num_subtopic * cfg.num_publisher) (range1 cfg.num_channels) 0).flatMap
        fun k => List.replicate cfg.num_metrics (uuid k) := by
  have h1 : (rows cfg uuid).map Row.publisher = ((rows cfg uuid).map pubName).map Prod.fst := by
    rw [List.map_map]
    rfl
  rw [h1, rows_map_pubName, map_fst_flatMap_pairs, mNames_length]

lemma rows_length (cfg : Config) (uuid : Nat → Nat) :
    (rows cfg uuid).length =
      cfg.num_channels * cfg.num_subtopic * cfg.num_publisher * cfg.num_metrics := by
  have h1 : (rows cfg uuid).length = ((rows cfg uuid).map pubName).length := by
    rw [List.length_map]
  rw [h1, rows_map_pubName,
    flatMap_const_length _ cfg.num_metrics (fun k => by rw [List.length_map, mNames_length]),
    chanPubCtrs_length, range1_length]
  ring

lemma rows_map_key4_nodup (cfg : Config) {uuid : Nat → Nat}
    (hu : Function.Injective uuid) : ((rows cfg uuid).map key4).Nodup := by
  have h1 : ((rows cfg uuid).map pubName).Nodup := by
    rw [rows_map_pubName]
    exact flatMap_pairs_nodup hu (mNames_nodup _)
      (chanPubCtrs_nodup _ (range1 cfg.num_channels) 0)
  have h2 : (rows cfg uuid).map pubName =
      ((rows cfg uuid).map key4).map fun t => (t.2.2.1, t.2.2.2) := by
    rw [List.map_map]
    rfl
  rw [h2] at h1
  exact h1.of_map _

/-! Structure of the emission loops. -/

lemma rowBlock_fst_length (rand : Nat → Nat) (t : Int) :
    ∀ rs ctr, ((rowBlock rand t rs ctr).1).length = rs.length := by
  intro rs
  induction rs with
  | nil => intro ctr; rfl
  | cons r rs ih => intro ctr; simp [rowBlock, ih]

lemma rowBlock_snd (rand : Nat → Nat) (t : Int) :
    ∀ rs ctr, (rowBlock rand t rs ctr).2 = ctr + rs.length := by
  intro rs
  induction rs with
  | nil => intro ctr; rfl
  | cons r rs ih =>
    intro ctr
    simp [rowBlock, ih]
    omega

lemma rowBlock_getElem (rand : Nat → Nat) (t : Int) :
    ∀ rs ctr j, ((rowBlock rand t rs ctr).1)[j]? =
      (rs[j]?).map fun r =>
        ({ time := t, row := r, value := uniform 0 100 (rand (ctr + j)) } : OutRow) := by
  intro rs
  induction rs with
  | nil => intro ctr j; simp [rowBlock]
  | cons r rs ih =>
    intro ctr j
    cases j with
    | zero => simp [rowBlock]
    | succ j =>
      have h1 : ctr + 1 + j = ctr + (j + 1) := by omega
      simp only [rowBlock, List.getElem?_cons_succ, ih (ctr + 1) j, h1]

lemma mem_rowBlock (rand : Nat → Nat) (t : Int) :
    ∀ rs ctr o, o ∈ (rowBlock rand t rs ctr).1 →
      o.row ∈ rs ∧ o.time = t ∧ ∃ m, o.value = uniform 0 100 (rand m) := by
  intro rs
  induction rs with
  | nil => intro ctr o h; simp [rowBlock] at h
  | cons r rs ih =>
    intro ctr o h
    rcases List.mem_cons.mp h with h1 | h1
    · subst h1
      exact ⟨List.mem_cons_self r rs, rfl, ctr, rfl⟩
    · rcases ih (ctr + 1) o h1 with ⟨ha, hb, hc⟩
      exact ⟨List.mem_cons_of_mem r ha, hb, hc⟩

lemma emitAll_fst_length (cfg : Config) (now : Int) (rand : Nat → Nat) (rs : List Row) :
    ∀ is ctr, ((emitAll cfg now rand rs is ctr).1).length = is.length * rs.length := by
  intro is
  induction is with
  | nil => intro ctr; simp [emitAll]
  | cons i is ih =>
    intro ctr
    simp [emitAll, rowBlock_fst_length, ih]
    ring

lemma emitAll_nil_rows (cfg : Config) (now : Int) (rand : Nat → Nat) :
    ∀ is ctr, (emitAll cfg now rand [] is ctr).1 = [] := by
  intro is
  induction is with
  | nil => intro ctr; rfl
  | cons i is ih => intro ctr; simp [emitAll, rowBlock, ih]

lemma mem_emitAll (cfg : Config) (now : Int) (rand : Nat → Nat) (rs : List Row) :
    ∀ is ctr o, o ∈ (emitAll cfg now rand rs is ctr).1 →
      o.row ∈ rs ∧ (∃ i ∈ is, o.time = timestampNs cfg now i) ∧
        ∃ m, o.value = uniform 0 100 (rand m) := by
  intro is
  induction is with
  | nil => intro ctr o h; simp [emitAll] at h
  | cons i is ih =>
    intro ctr o h
    rcases List.mem_append.mp h with h1 | h1
    · rcases mem_rowBlock rand _ rs ctr o h1 with ⟨ha, hb, hc⟩
      exact ⟨ha, ⟨i, List.mem_cons_self i is, hb⟩, hc⟩
    · rcases ih _ o h1 with ⟨ha, ⟨i2, hi2, hb⟩, hc⟩
      exact ⟨ha, ⟨i2, List.mem_cons_of_mem i hi2, hb⟩, hc⟩

lemma emitAll_getElem (cfg : Config) (now : Int) (rand : Nat → Nat) (rs : List Row)
    (hn : 0 < rs.length) : ∀ is ctr k, k < is.length * rs.length →
      ((emitAll cfg now rand rs is ctr).1)[k]? =
        (is[k / rs.length]?).bind fun i => (rs[k % rs.length]?).map fun r =>
          ({ time := timestampNs cfg now i, row := r,
             value := uniform 0 100 (rand (ctr + k)) } : OutRow) := by
  intro is
  induction is with
  | nil => intro ctr k hk; simp at hk
  | cons i is ih =>
    intro ctr k hk
    by_cases hlt : k < rs.length
    · have hdiv : k / rs.length = 0 := Nat.div_eq_of_lt hlt
      have hmod : k % rs.length = k := Nat.mod_eq_of_lt hlt
      rw [emitAll]
      rw [List.getElem?_append_left (by rw [rowBlock_fst_length]; exact hlt),
        rowBlock_getElem, hdiv, hmod, List.getElem?_cons_zero]
      rfl
    · push_neg at hlt
      have hdiv : k / rs.length = (k - rs.length) / rs.length + 1 :=
        Nat.div_eq_sub_div hn hlt
      have hmod : k % rs.length = (k - rs.length) % rs.length := Nat.mod_eq_sub_mod hlt
      have hk2 : k - rs.length < is.length * rs.length := by
        have h1 : (i :: is).length * rs.length = rs.length + is.length * rs.length := by
          simp [Nat.succ_mul]
          ring
        omega
      rw [emitAll]
      rw [List.getElem?_append_right (by rw [rowBlock_fst_length]; exact hlt)]
      rw [rowBlock_fst_length, rowBlock_snd, ih (ctr + rs.length) (k - rs.length) hk2]
      rw [hdiv, hmod, List.getElem?_cons_succ]
      have h3 : ctr + rs.length + (k - rs.length) = ctr + k := by omega
      rw [h3]

/-! Independence of the emitted label structure from the random sources. -/

/-- The (subtopic, name) label pair of a catalog row. -/
def rowLabel (r : Row) : String × String := (r.subtopic, r.name)

/-- The (subtopic, name) label pair of an emitted reading. -/
def outLabel (o : OutRow) : String × String := rowLabel o.row

lemma metricRows_map_rowLabel (ch : Nat) (st : String) (pid M : Nat) :
    (metricRows ch st pid M).map rowLabel = (mNames M).map fun nm => (st, nm) := by
  simp only [metricRows, mNames, List.map_map]
  rfl

lemma publisherRows_map_rowLabel (u u2 : Nat → Nat) (ch ch2 : Nat) (st : String) (M : Nat) :
    ∀ ps ctr ctr2, ((publisherRows u ch st M ps ctr).1).map rowLabel =
      ((publisherRows u2 ch2 st M ps ctr2).1).map rowLabel := by
  intro ps
  induction ps with
  | nil => intro ctr ctr2; rfl
  | cons p ps ih =>
    intro ctr ctr2
    simp only [publisherRows, List.map_append, metricRows_map_rowLabel, ih (ctr + 1) (ctr2 + 1)]

lemma subtopicRows_map_rowLabel (u u2 : Nat → Nat) (ch ch2 P M : Nat) :
    ∀ ss ctr ctr2, ((subtopicRows u ch P M ss ctr).1).map rowLabel =
      ((subtopicRows u2 ch2 P M ss ctr2).1).map rowLabel := by
  intro ss
  induction ss with
  | nil => intro ctr ctr2; rfl
  | cons s ss ih =>
    intro ctr ctr2
    simp only [subtopicRows, List.map_append]
    rw [publisherRows_map_rowLabel u u2 ch ch2 _ M (range1 P) ctr ctr2, ih]

lemma channelRows_map_rowLabel (u u2 : Nat → Nat) (S P M : Nat) :
    ∀ cs ctr ctr2, ((channelRows u S P M cs ctr).1).map rowLabel =
      ((channelRows u2 S P M cs ctr2).1).map rowLabel := by
  intro cs
  induction cs with
  | nil => intro ctr ctr2; rfl
  | cons x cs ih =>
    intro ctr ctr2
    simp only [channelRows, List.map_append]
    rw [subtopicRows_map_rowLabel u u2 _ _ P M (range1 S) (ctr + 1) (ctr2 + 1), ih]

lemma rows_map_rowLabel (cfg : Config) (u u2 : Nat → Nat) :
    (rows cfg u).map rowLabel = (rows cfg u2).map rowLabel :=
  channelRows_map_rowLabel u u2 _ _ _ (range1 cfg.num_channels) 0 0

lemma rowBlock_map_outLabel (rand : Nat → Nat) (t : Int) :
    ∀ rs ctr, ((rowBlock rand t rs ctr).1).map outLabel = rs.map rowLabel := by
  intro rs
  induction rs with
  | nil => intro ctr; rfl
  | cons r rs ih =>
    intro ctr
    simp only [rowBlock, List.map_cons, ih (ctr + 1)]
    rfl

lemma emitAll_map_outLabel (cfg cfg2 : Config) (now now2 : Int) (rand rand2 : Nat → Nat)
    (rs rs2 : List Row) (h : rs.map rowLabel = rs2.map rowLabel) :
    ∀ is ctr ctr2, ((emitAll cfg now rand rs is ctr).1).map outLabel =
      ((emitAll cfg2 now2 rand2 rs2 is ctr2).1).map outLabel := by
  intro is
  induction is with
  | nil => intro ctr ctr2; rfl
  | cons i is ih =>
    intro ctr ctr2
    simp only [emitAll, List.map_append, rowBlock_map_outLabel, h]
    exact congrArg (fun l => List.map rowLabel rs2 ++ l) (ih _ _)

/-! Facts about the rendered CSV lines and the sampled values. -/

lemma renderRow_eq_intercalate (o : OutRow) :
    renderRow o = String.intercalate "," (renderFields o) := by
  apply String.ext
  simp [renderRow, renderFields, String.intercalate, String.intercalate.go,
    String.data_append, List.append_assoc]

lemma renderRow_data (o : OutRow) : (renderRow o).data =
    (intStr o.time).data ++ ",".data ++ (uuidStr o.row.channel).data ++ ",".data
      ++ (o.row.subtopic).data ++ ",".data ++ (uuidStr o.row.publisher).data
      ++ ",mqtt,".data ++ (o.row.name).data ++ ",unit,".data ++ (ratStr o.value).data := by
  simp [renderRow, String.data_append, List.append_assoc]

lemma renderRow_count_comma (o : OutRow) (hsub : ',' ∉ (o.row.subtopic).data)
    (hname : ',' ∉ (o.row.name).data) : ((renderRow o).data).count ',' = 7 := by
  rw [renderRow_data]
  repeat rw [List.count_append]
  rw [List.count_eq_zero_of_not_mem (comma_not_mem_intStr o.time),
    List.count_eq_zero_of_not_mem (comma_not_mem_uuidStr o.row.channel),
    List.count_eq_zero_of_not_mem hsub,
    List.count_eq_zero_of_not_mem (comma_not_mem_uuidStr o.row.publisher),
    List.count_eq_zero_of_not_mem hname,
    List.count_eq_zero_of_not_mem (comma_not_mem_ratStr o.value)]
  decide

lemma renderRow_ne_headerLine (o : OutRow) : renderRow o ≠ headerLine := by
  intro h
  have hdata : (renderRow o).data = headerLine.data := by rw [h]
  rw [renderRow_data] at hdata
  cases hx : (intStr o.time).data with
  | nil => exact intStr_data_ne_nil o.time hx
  | cons c cs =>
    rw [hx] at hdata
    have hc : c ∈ (intStr o.time).data := by
      rw [hx]
      exact List.mem_cons_self c cs
    have h2 : (some c : Option Char) = some 't' := by
      have e1 : headerLine.data.head? = some 't' := rfl
      rw [← e1, ← hdata]
      simp [List.cons_append]
    exact mem_intStr_ne_t hc (Option.some.inj h2)

lemma comma_not_mem_label {pre : String} (hpre : ',' ∉ pre.data) (i : Nat) :
    ',' ∉ (pre ++ natStr i).data := by
  rw [String.data_append]
  intro h
  rcases List.mem_append.mp h with h1 | h1
  · exact hpre h1
  · exact comma_not_mem_natStr i h1

lemma uniform_nonneg (k : Nat) : 0 ≤ uniform 0 100 k := by
  unfold uniform randomUnit
  positivity

lemma uniform_lt_100 {k : Nat} (hk : k < 2 ^ 53) : uniform 0 100 k < 100 := by
  unfold uniform randomUnit
  have h1 : (k : ℚ) / 2 ^ 53 < 1 := by
    rw [div_lt_one (by positivity)]
    exact_mod_cast hk
  nlinarith [h1]

lemma dataRows_length (cfg : Config) (uuid rand : Nat → Nat) (now : Int) :
    (dataRows cfg uuid rand now).length = num_intervals cfg * (rows cfg uuid).length := by
  unfold dataRows
  rw [emitAll_fst_length, List.length_range]

/-! The spec claims. -/

/-- C1: for every configuration of positive cardinalities and a UUID stream
that never repeats a value, the catalog holds exactly `C*S*P*M` entries and
they are pairwise distinct under the (channel, subtopic, publisher, name)
key. -/
theorem entityCatalog_size_and_distinct (cfg : Config) (uuid : Nat → Nat)
    (hu : Function.Injective uuid) (hC : 0 < cfg.num_channels)
    (hS : 0 < cfg.num_subtopic) (hP : 0 < cfg.num_publisher)
    (hM : 0 < cfg.num_metrics) :
    (rows cfg uuid).length =
      cfg.num_channels * cfg.num_subtopic * cfg.num_publisher * cfg.num_metrics ∧
    ((rows cfg uuid).map key4).Nodup :=
  ⟨rows_length cfg uuid, rows_map_key4_nodup cfg hu⟩

theorem entityCatalog_size_and_distinct_witness :
    Function.Injective (id : Nat → Nat) ∧ 0 < 2 ∧ 0 < 1 ∧
    ((rows (Config.mk 2 1 1 2 1 720) id).length = 2 * 1 * 1 * 2 ∧
      ((rows (Config.mk 2 1 1 2 1 720) id).map key4).Nodup) :=
  ⟨Function.injective_id, by decide, by decide,
    entityCatalog_size_and_distinct (Config.mk 2 1 1 2 1 720) id Function.injective_id
      (by decide) (by decide) (by decide) (by decide)⟩

/-- C2: for every run with nonempty catalog and time grid, the header line
is written first and exactly once, and the number of data lines equals
(catalog size) × (timestamp count). -/
theorem rowEmitter_row_count_and_header (cfg : Config) (uuid rand : Nat → Nat)
    (now : Int) (hrows : 0 < (rows cfg uuid).length) (hT : 0 < num_intervals cfg) :
    (outputLines cfg uuid rand now).head? = some headerLine ∧
    ((outputLines cfg uuid rand now).tail).length =
      num_intervals cfg * (rows cfg uuid).length ∧
    (outputLines cfg uuid rand now).count headerLine = 1 := by
  refine ⟨rfl, ?_, ?_⟩
  · show ((dataRows cfg uuid rand now).map renderRow).length = _
    rw [List.length_map, dataRows_length]
  · rw [outputLines, List.count_cons_self]
    have h0 : ((dataRows cfg uuid rand now).map renderRow).count headerLine = 0 := by
      apply List.count_eq_zero_of_not_mem
      intro h
      rcases List.mem_map.mp h with ⟨o, _, ho⟩
      exact renderRow_ne_headerLine o ho
    omega

theorem rowEmitter_row_count_and_header_witness :
    0 < (rows (Config.mk 1 1 1 1 1 1440) id).length ∧
    0 < num_intervals (Config.mk 1 1 1 1 1 1440) ∧
    ((outputLines (Config.mk 1 1 1 1 1 1440) id (fun _ => 0) 0).head? = some headerLine ∧
      ((outputLines (Config.mk 1 1 1 1 1 1440) id (fun _ => 0) 0).tail).length =
        num_intervals (Config.mk 1 1 1 1 1 1440) *
          (rows (Config.mk 1 1 1 1 1 1440) id).length ∧
      (outputLines (Config.mk 1 1 1 1 1 1440) id (fun _ => 0) 0).count headerLine = 1) :=
  ⟨by decide, by decide,
    rowEmitter_row_count_and_header (Config.mk 1 1 1 1 1 1440) id (fun _ => 0) 0
      (by decide) (by decide)⟩

/-- C3: for positive window and interval, the number of emitted timestamps is
the floor of `window_days * 1440 / interval_minutes` taken over exact
rational division: the trailing partial interval is dropped, never rounded
up. -/
theorem timeGrid_count_is_floor (cfg : Config) (now : Int)
    (hW : 0 < cfg.last_num_days) (hI : 0 < cfg.data_interval_minutes) :
    ((timestamps cfg now).length : Int) =
      ⌊((cfg.last_num_days : ℚ) * 1440) / (cfg.data_interval_minutes : ℚ)⌋ := by
  have h1 : (timestamps cfg now).length = num_intervals cfg := by
    rw [timestamps, List.length_map, List.length_range]
  have h2 : ((cfg.last_num_days : ℚ) * 1440) = ((cfg.last_num_days * 1440 : ℕ) : ℚ) := by
    push_cast
    ring
  rw [h1, h2, Rat.floor_natCast_div_natCast]
  unfold num_intervals
  have h3 : cfg.last_num_days * 24 * 60 = cfg.last_num_days * 1440 := by ring
  rw [h3]
  exact Int.natCast_div _ _

theorem timeGrid_count_is_floor_witness :
    0 < 1 ∧ 0 < 7 ∧
    ((timestamps (Config.mk 1 1 1 1 1 7) 0).length : Int) =
      ⌊(((Config.mk 1 1 1 1 1 7 : Config).last_num_days : ℚ) * 1440) /
        ((Config.mk 1 1 1 1 1 7 : Config).data_interval_minutes : ℚ)⌋ :=
  ⟨by decide, by decide,
    timeGrid_count_is_floor (Config.mk 1 1 1 1 1 7) 0 (by decide) (by decide)⟩

/-- C4: with a positive interval and at least two timestamps, the emitted
nanosecond timestamps are strictly increasing, start at the generation
instant minus the window, and advance by exactly
`interval_minutes * 60 * 10^9` nanoseconds per step. -/
theorem timeGrid_monotone_start_step (cfg : Config) (now : Int)
    (hI : 0 < cfg.data_interval_minutes) (hT : 2 ≤ num_intervals cfg) :
    (timestamps cfg now).Pairwise (· < ·) ∧
    (timestamps cfg now).head? =
      some ((now - cfg.last_num_days * 86400000000) * 1000) ∧
    ∀ (i : Nat) (a b : Int), (timestamps cfg now)[i]? = some a →
      (timestamps cfg now)[i + 1]? = some b →
      b - a = (cfg.data_interval_minutes : Int) * 60000000000 := by
  have hB : (0 : Int) < (cfg.data_interval_minutes : Int) * 60000000 := by
    have h0 : (0 : Int) < (cfg.data_interval_minutes : Int) := by exact_mod_cast hI
    positivity
  refine ⟨?_, ?_, ?_⟩
  · rw [timestamps, List.pairwise_map]
    refine (List.pairwise_lt_range _).imp ?_
    intro a b hab
    unfold timestampNs
    have hab2 : (a : Int) < b := by exact_mod_cast hab
    nlinarith [hB]
  · have h0 : 0 < num_intervals cfg := by omega
    rw [timestamps, List.head?_eq_getElem?, List.getElem?_map, List.getElem?_range h0]
    show some (timestampNs cfg now 0) = _
    simp only [Option.some.injEq]
    unfold timestampNs startTimeUs
    push_cast
    ring
  · intro i a b ha hb
    have hib : i + 1 < num_intervals cfg := by
      by_contra hcon
      push_neg at hcon
      have he : (timestamps cfg now)[i + 1]? = none := by
        apply List.getElem?_eq_none
        rw [timestamps, List.length_map, List.length_range]
        exact hcon
      rw [he] at hb
      simp at hb
    have hia : i < num_intervals cfg := by omega
    rw [timestamps, List.getElem?_map, List.getElem?_range hia] at ha
    rw [timestamps, List.getElem?_map, List.getElem?_range hib] at hb
    simp only [Option.map_some'] at ha hb
    rw [← Option.some.inj ha, ← Option.some.inj hb]
    unfold timestampNs
    push_cast
    ring

theorem timeGrid_monotone_start_step_witness :
    0 < 720 ∧ 2 ≤ num_intervals (Config.mk 1 1 1 1 1 720) ∧
    ((timestamps (Config.mk 1 1 1 1 1 720) 0).Pairwise (· < ·) ∧
      (timestamps (Config.mk 1 1 1 1 1 720) 0).head? =
        some (((0 : Int) - ((Config.mk 1 1 1 1 1 720 : Config).last_num_days : Int)
          * 86400000000) * 1000) ∧
      ∀ (i : Nat) (a b : Int), (timestamps (Config.mk 1 1 1 1 1 720) 0)[i]? = some a →
        (timestamps (Config.mk 1 1 1 1 1 720) 0)[i + 1]? = some b →
        b - a = ((Config.mk 1 1 1 1 1 720 : Config).data_interval_minutes : Int) * 60000000000) :=
  ⟨by decide, by decide,
    timeGrid_monotone_start_step (Config.mk 1 1 1 1 1 720) 0 (by decide) (by decide)⟩

/-- C5: data rows are emitted timestamp-major: the k-th reading (0-based)
carries the timestamp of grid index `k / |catalog|` and the catalog entry of
index `k % |catalog|`; its rendered line is the comma-intercalation of eight
fields whose fifth is the literal `mqtt` and whose seventh the literal
`unit`. -/
theorem rowEmitter_timestamp_major_order (cfg : Config) (uuid rand : Nat → Nat)
    (now : Int) (k : Nat) (hk : k < (dataRows cfg uuid rand now).length) :
    ∃ o : OutRow, (dataRows cfg uuid rand now)[k]? = some o ∧
      o.time = timestampNs cfg now (k / (rows cfg uuid).length) ∧
      (rows cfg uuid)[k % (rows cfg uuid).length]? = some o.row ∧
      renderRow o = String.intercalate "," (renderFields o) ∧
      (renderFields o)[4]? = some "mqtt" ∧ (renderFields o)[6]? = some "unit" := by
  have hlen := dataRows_length cfg uuid rand now
  have hn : 0 < (rows cfg uuid).length := by
    rcases Nat.eq_zero_or_pos (rows cfg uuid).length with h0 | h0
    · rw [h0, Nat.mul_zero] at hlen
      omega
    · exact h0
  have hk2 : k < num_intervals cfg * (rows cfg uuid).length := by omega
  have hget := emitAll_getElem cfg now rand (rows cfg uuid) hn
    (List.range (num_intervals cfg)) 0 k (by rwa [List.length_range])
  have hkd : k / (rows cfg uuid).length < num_intervals cfg := by
    rw [Nat.div_lt_iff_lt_mul hn]
    exact hk2
  have hkm : k % (rows cfg uuid).length < (rows cfg uuid).length := Nat.mod_lt _ hn
  rcases hrow : (rows cfg uuid)[k % (rows cfg uuid).length]? with _ | r
  · rw [List.getElem?_eq_none_iff] at hrow
    omega
  · refine ⟨OutRow.mk (timestampNs cfg now (k / (rows cfg uuid).length)) r
      (uniform 0 100 (rand (0 + k))), ?_, rfl, rfl,
      renderRow_eq_intercalate _, rfl, rfl⟩
    show (emitAll cfg now rand (rows cfg uuid) (List.range (num_intervals cfg)) 0).1[k]? = _
    rw [hget, List.getElem?_range hkd, hrow]
    rfl

theorem rowEmitter_timestamp_major_order_witness :
    5 < (dataRows (Config.mk 2 1 1 2 1 720) id (fun _ => 0) 0).length ∧
    ∃ o : OutRow, (dataRows (Config.mk 2 1 1 2 1 720) id (fun _ => 0) 0)[5]? = some o ∧
      o.time = timestampNs (Config.mk 2 1 1 2 1 720) 0
        (5 / (rows (Config.mk 2 1 1 2 1 720) id).length) ∧
      (rows (Config.mk 2 1 1 2 1 720) id)[5 % (rows (Config.mk 2 1 1 2 1 720) id).length]? =
        some o.row ∧
      renderRow o = String.intercalate "," (renderFields o) ∧
      (renderFields o)[4]? = some "mqtt" ∧ (renderFields o)[6]? = some "unit" :=
  ⟨by decide,
    rowEmitter_timestamp_major_order (Config.mk 2 1 1 2 1 720) id (fun _ => 0) 0 5 (by decide)⟩

/-- C6: every emitted value lies in the half-open interval [0, 100), given
that the 53-bit random draws are in range (which CPython guarantees). -/
theorem emitted_values_in_range (cfg : Config) (uuid rand : Nat → Nat) (now : Int)
    (hrand : ∀ m, rand m < 2 ^ 53) :
    ∀ o ∈ dataRows cfg uuid rand now, 0 ≤ o.value ∧ o.value < 100 := by
  intro o ho
  rcases mem_emitAll cfg now rand (rows cfg uuid) (List.range (num_intervals cfg)) 0 o ho
    with ⟨_, _, m, hv⟩
  rw [hv]
  exact ⟨uniform_nonneg _, uniform_lt_100 (hrand m)⟩

theorem emitted_values_in_range_witness :
    (∀ m, (fun _ => 0 : Nat → Nat) m < 2 ^ 53) ∧
    (0 ≤ ((dataRows (Config.mk 1 1 1 1 1 1440) id (fun _ => 0) 0).get ⟨0, by decide⟩).value ∧
      ((dataRows (Config.mk 1 1 1 1 1 1440) id (fun _ => 0) 0).get ⟨0, by decide⟩).value
        < 100) :=
  ⟨fun _ => by norm_num,
    emitted_values_in_range (Config.mk 1 1 1 1 1 1440) id (fun _ => 0) 0
      (fun _ => by norm_num) _ (List.get_mem _ _ _)⟩

/-- C7: with a fresh UUID stream and positive cardinalities, the catalog has
exactly C distinct channel identifiers and C*S*P distinct publisher
identifiers; every channel identifier occurs in exactly S*P*M catalog rows
and every publisher identifier in exactly M. -/
theorem identifier_cardinalities_and_sharing (cfg : Config) (uuid : Nat → Nat)
    (hu : Function.Injective uuid) (hS : 0 < cfg.num_subtopic)
    (hP : 0 < cfg.num_publisher) (hM : 0 < cfg.num_metrics) :
    ((rows cfg uuid).map Row.channel).toFinset.card = cfg.num_channels ∧
    ((rows cfg uuid).map Row.publisher).toFinset.card =
      cfg.num_channels * cfg.num_subtopic * cfg.num_publisher ∧
    (∀ r ∈ rows cfg uuid, ((rows cfg uuid).map Row.channel).count r.channel =
      cfg.num_subtopic * cfg.num_publisher * cfg.num_metrics) ∧
    (∀ r ∈ rows cfg uuid, ((rows cfg uuid).map Row.publisher).count r.publisher =
      cfg.num_metrics) := by
  have hm1 : cfg.num_subtopic * (cfg.num_publisher * cfg.num_metrics) ≠ 0 :=
    Nat.pos_iff_ne_zero.mp (Nat.mul_pos hS (Nat.mul_pos hP hM))
  have hm2 : cfg.num_metrics ≠ 0 := Nat.pos_iff_ne_zero.mp hM
  refine ⟨?_, ?_, ?_, ?_⟩
  · rw [rows_map_channel, flatMap_replicate_toFinset uuid hm1,
      List.toFinset_card_of_nodup ((chanCtrs_nodup _ _ 0).map hu), List.length_map,
      chanCtrs_length, range1_length]
  · rw [rows_map_publisher, flatMap_replicate_toFinset uuid hm2,
      List.toFinset_card_of_nodup ((chanPubCtrs_nodup _ _ 0).map hu), List.length_map,
      chanPubCtrs_length, range1_length]
    ring
  · intro r hr
    have hcm : r.channel ∈ (rows cfg uuid).map Row.channel := List.mem_map_of_mem _ hr
    rw [rows_map_channel] at hcm
    rcases List.mem_flatMap.mp hcm with ⟨k0, hk0, hrep⟩
    have hch : r.channel = uuid k0 := List.eq_of_mem_replicate hrep
    rw [rows_map_channel, hch, flatMap_replicate_count hu,
      List.count_eq_one_of_mem (chanCtrs_nodup _ _ 0) hk0]
    ring
  · intro r hr
    have hcm : r.publisher ∈ (rows cfg uuid).map Row.publisher := List.mem_map_of_mem _ hr
    rw [rows_map_publisher] at hcm
    rcases List.mem_flatMap.mp hcm with ⟨k0, hk0, hrep⟩
    have hch : r.publisher = uuid k0 := List.eq_of_mem_replicate hrep
    rw [rows_map_publisher, hch, flatMap_replicate_count hu,
      List.count_eq_one_of_mem (chanPubCtrs_nodup _ _ 0) hk0]
    ring

theorem identifier_cardinalities_and_sharing_witness :
    Function.Injective (id : Nat → Nat) ∧
    (((rows (Config.mk 2 1 1 2 1 720) id).map Row.channel).toFinset.card = 2 ∧
      ((rows (Config.mk 2 1 1 2 1 720) id).map Row.publisher).toFinset.card = 2 * 1 * 1 ∧
      (∀ r ∈ rows (Config.mk 2 1 1 2 1 720) id,
        ((rows (Config.mk 2 1 1 2 1 720) id).map Row.channel).count r.channel = 1 * 1 * 2) ∧
      (∀ r ∈ rows (Config.mk 2 1 1 2 1 720) id,
        ((rows (Config.mk 2 1 1 2 1 720) id).map Row.publisher).count r.publisher = 2)) :=
  ⟨Function.injective_id,
    identifier_cardinalities_and_sharing (Config.mk 2 1 1 2 1 720) id Function.injective_id
      (by decide) (by decide) (by decide)⟩

/-- C8: two runs with the same configuration but arbitrary identifier and
value draws and generation instants produce files with the same number of
lines, the same header, and the same set of (subtopic, name) label pairs. -/
theorem structural_idempotence (cfg : Config) (u1 r1 : Nat → Nat) (t1 : Int)
    (u2 r2 : Nat → Nat) (t2 : Int) :
    (outputLines cfg u1 r1 t1).length = (outputLines cfg u2 r2 t2).length ∧
    (outputLines cfg u1 r1 t1).head? = (outputLines cfg u2 r2 t2).head? ∧
    ∀ p : String × String,
      (∃ o ∈ dataRows cfg u1 r1 t1, outLabel o = p) ↔
      (∃ o ∈ dataRows cfg u2 r2 t2, outLabel o = p) := by
  have hlab : (dataRows cfg u1 r1 t1).map outLabel = (dataRows cfg u2 r2 t2).map outLabel :=
    emitAll_map_outLabel cfg cfg t1 t2 r1 r2 (rows cfg u1) (rows cfg u2)
      (rows_map_rowLabel cfg u1 u2) (List.range (num_intervals cfg)) 0 0
  refine ⟨?_, rfl, ?_⟩
  · show ((dataRows cfg u1 r1 t1).map renderRow).length + 1 =
      ((dataRows cfg u2 r2 t2).map renderRow).length + 1
    rw [List.length_map, List.length_map, dataRows_length, dataRows_length,
      rows_length, rows_length]
  · intro p
    rw [show (∃ o ∈ dataRows cfg u1 r1 t1, outLabel o = p) ↔
        p ∈ (dataRows cfg u1 r1 t1).map outLabel from (List.mem_map).symm,
      show (∃ o ∈ dataRows cfg u2 r2 t2, outLabel o = p) ↔
        p ∈ (dataRows cfg u2 r2 t2).map outLabel from (List.mem_map).symm,
      hlab]

/-- C9: if any cardinality is zero or the time grid is empty, the generator
still runs to completion (the embedding is total) and the file consists of
the header alone. -/
theorem degenerate_config_header_only (cfg : Config) (uuid rand : Nat → Nat) (now : Int)
    (h : cfg.num_channels = 0 ∨ cfg.num_subtopic = 0 ∨ cfg.num_publisher = 0 ∨
      cfg.num_metrics = 0 ∨ num_intervals cfg = 0) :
    outputLines cfg uuid rand now = [headerLine] := by
  have hdr : dataRows cfg uuid rand now = [] := by
    have hlen : (dataRows cfg uuid rand now).length = 0 := by
      rw [dataRows_length, rows_length]
      rcases h with h | h | h | h | h <;> simp [h]
    exact List.length_eq_zero.mp hlen
  rw [outputLines, hdr]
  rfl

theorem degenerate_config_header_only_witness :
    ((Config.mk 0 1 1 1 1 15 : Config).num_channels = 0 ∨
      (Config.mk 0 1 1 1 1 15 : Config).num_subtopic = 0 ∨
      (Config.mk 0 1 1 1 1 15 : Config).num_publisher = 0 ∨
      (Config.mk 0 1 1 1 1 15 : Config).num_metrics = 0 ∨
      num_intervals (Config.mk 0 1 1 1 1 15) = 0) ∧
    outputLines (Config.mk 0 1 1 1 1 15) id (fun _ => 0) 0 = [headerLine] :=
  ⟨Or.inl rfl,
    degenerate_config_header_only (Config.mk 0 1 1 1 1 15) id (fun _ => 0) 0 (Or.inl rfl)⟩

/-- C10: every emitted data line contains exactly seven commas — its eight
fields (integer timestamp, hyphenated hex identifiers, `subtopic_i` and
`metric_j` labels, the literals `mqtt` and `unit`, and the decimal value)
are comma-free, so the CSV needs no quoting. -/
theorem csv_lines_have_seven_commas (cfg : Config) (uuid rand : Nat → Nat) (now : Int) :
    ∀ line ∈ (outputLines cfg uuid rand now).tail, (line.data).count ',' = 7 := by
  intro line hline
  have hline2 : line ∈ (dataRows cfg uuid rand now).map renderRow := hline
  rcases List.mem_map.mp hline2 with ⟨o, ho, rfl⟩
  rcases mem_emitAll cfg now rand (rows cfg uuid) (List.range (num_intervals cfg)) 0 o ho
    with ⟨hrow, _, _⟩
  rcases channelRows_subtopic uuid _ _ _ (range1 cfg.num_channels) 0 o.row hrow
    with ⟨i, _, _, hsub⟩
  have hpn : pubName o.row ∈ (rows cfg uuid).map pubName := List.mem_map_of_mem _ hrow
  rw [rows_map_pubName] at hpn
  rcases List.mem_flatMap.mp hpn with ⟨k, _, hin⟩
  rcases List.mem_map.mp hin with ⟨nm, hnm, heq⟩
  rcases mem_mNames hnm with ⟨j, _, _, rfl⟩
  have hname : o.row.name = "metric_" ++ natStr j := (congrArg Prod.snd heq).symm
  apply renderRow_count_comma
  · rw [hsub]
    exact comma_not_mem_label (by decide) i
  · rw [hname]
    exact comma_not_mem_label (by decide) j

theorem csv_lines_have_seven_commas_witness :
    ((((outputLines (Config.mk 1 1 1 1 1 1440) id (fun _ => 0) 0).tail.get
      ⟨0, by decide⟩).data).count ',') = 7 :=
  csv_lines_have_seven_commas (Config.mk 1 1 1 1 1 1440) id (fun _ => 0) 0 _
    (List.get_mem _ _ _)
